import Mathlib

/-!
Shallow embedding of `_misc/readme_update_helptext.py`.

Strings are modelled as `List Char`.  Python `str.find`, `str.replace`,
slicing, `str.rstrip` and the regular-expression substitution that removes
horizontal whitespace standing right before a newline or before the end of
the text are given executable definitions below.  The script entry point
`main` is modelled as a function from the outcome of the external command
invocation and the current content of `readme.rst` to the observable result:
an unhandled exception, a printed `not found` error with no file write, or
the new file content that is written back.
-/

/-- The fixed command name, `COMMAND_NAME = 'nitf-rename'` in the source. -/
def COMMAND_NAME : List Char := "nitf-rename".toList

/-- First pattern of `patch_help_test`: `'usage: ' + COMMAND_NAME`. -/
def usage_pat : List Char := "usage: ".toList ++ COMMAND_NAME

/-- First replacement of `patch_help_test`:
`'usage::\n' '\n' '       ' + COMMAND_NAME` (seven spaces of indentation). -/
def usage_rep : List Char := "usage::\n\n       ".toList ++ COMMAND_NAME

/-- Second pattern of `patch_help_test`: the brace-delimited choice token. -/
def choices_pat : List Char := "\x7bnone,auto,git,hg,svn\x7d".toList

/-- Second replacement of `patch_help_test`: the angle-bracket form. -/
def choices_rep : List Char := "<none,auto,git,hg,svn>".toList

/-- Fuelled worker for `replaceAll`.  The fuel is an upper bound on the
length of the remaining text; `replaceAll` always supplies enough fuel, see
`replaceAllAux_congr`.  This mirrors Python `str.replace` for a non-empty
pattern: scan left to right, replace each non-overlapping occurrence of
`pat` by `rep`, and continue after the replaced occurrence. -/
def replaceAllAux (pat rep : List Char) : Nat → List Char → List Char
  | _, [] => []
  | 0, s => s
  | fuel + 1, c :: rest =>
    if !pat.isEmpty && pat.isPrefixOf (c :: rest) then
      rep ++ replaceAllAux pat rep fuel ((c :: rest).drop pat.length)
    else
      c :: replaceAllAux pat rep fuel rest

/-- Python `s.replace(pat, rep)` for a non-empty pattern `pat`. -/
def replaceAll (pat rep s : List Char) : List Char :=
  replaceAllAux pat rep s.length s

/-- `patch_help_test` from the source: first replace
`'usage: ' + COMMAND_NAME`, then replace the brace-delimited choice token. -/
def patch_help_test (help_output : List Char) : List Char :=
  let help_output := replaceAll usage_pat usage_rep help_output
  replaceAll choices_pat choices_rep help_output

/-- Characters stripped by Python `str.rstrip()` with no argument: every
character for which `str.isspace()` holds. -/
def isPyWS (c : Char) : Bool :=
  c == ' ' || c == '\t' || c == '\n' || c == '\x0b' || c == '\x0c' || c == '\r' ||
  c == '\x1c' || c == '\x1d' || c == '\x1e' || c == '\x1f' || c == '\x85' ||
  c == '\xa0' || c == '\u1680' || ('\u2000' ≤ c && c ≤ '\u200a') ||
  c == '\u2028' || c == '\u2029' || c == '\u202f' || c == '\u205f' || c == '\u3000'

/-- Horizontal whitespace, the character class of the source regex. -/
def isHWS (c : Char) : Bool :=
  c == ' ' || c == '\t'

/-- Python `s.rstrip()`: remove all trailing whitespace characters. -/
def rstrip (s : List Char) : List Char :=
  (s.reverse.dropWhile isPyWS).reverse

/-- The substitution `re.sub(r'[ \t]+(\n|\Z)', r'\1', s)` from the source:
every maximal run of spaces and tabs that stands immediately before a
newline, or at the very end of the text, is removed; all other characters
are kept.  Formulated as a right fold: a space or tab is dropped exactly
when everything between it and the next newline (or the end of the text)
is also dropped. -/
def stripTrailingHWS : List Char → List Char
  | [] => []
  | c :: rest =>
    let out := stripTrailingHWS rest
    if isHWS c then
      match out with
      | [] => []
      | '\n' :: _ => out
      | _ => c :: out
    else
      c :: out

/-- The normalization `main` performs on the captured standard output before
`patch_help_test`: `p.stdout.decode('utf-8').rstrip() + '\n\n'` followed by
the trailing-horizontal-whitespace substitution. -/
def normalize_stdout (stdout : List Char) : List Char :=
  stripTrailingHWS (rstrip stdout ++ "\n\n".toList)

/-- The heading step of `main`:
`'\nOutput of ``' + COMMAND_NAME + ' --help``\n\n' + help_output`. -/
def prepend_heading (help_output : List Char) : List Char :=
  "\nOutput of ``".toList ++ COMMAND_NAME ++ " --help``\n\n".toList ++ help_output

/-- `help_begin_text` from the source. -/
def help_begin_text : List Char := ".. BEGIN HELP TEXT".toList

/-- `help_end_text` from the source. -/
def help_end_text : List Char := ".. END HELP TEXT".toList

/-- The begin-marker line: the begin marker followed by its line
terminator.  A document whose begin marker is immediately followed by a
newline has the shape `pre ++ markerline ++ rest`. -/
def markerline : List Char := help_begin_text ++ ['\n']

/-- Worker for `pyFind`: the index argument tracks the absolute position of
the head of the remaining text. -/
def findFromAux (sub : List Char) : List Char → Nat → Option Nat
  | [], i => if sub.isEmpty then some i else none
  | c :: t, i => if sub.isPrefixOf (c :: t) then some i else findFromAux sub t (i + 1)

/-- Python `data.find(sub, start)` for `0 ≤ start`: the least index at or
after `start` at which `sub` occurs in `data`, or `none` (Python `-1`). -/
def pyFind (data sub : List Char) (start : Nat) : Option Nat :=
  findFromAux sub (data.drop start) start

/-- Observable outcome of the splicing part of `main`.  `errorNotFound m`
models the branch that prints `Error: m not found` and returns without
writing the file; `written d` models writing `d` back to `readme.rst`. -/
inductive SpliceResult where
  | errorNotFound (marker : List Char)
  | written (data_update : List Char)
deriving DecidableEq

/-- The splicing part of `main` (source lines 53 to 73).  The source
computes `data.find(help_end_text, help_begin_index)` before testing
`help_begin_index == -1`; since that branch returns the begin-marker error
regardless of the end search, matching on the begin search first is
observably the same.  The insertion index is
`help_begin_index + len(help_begin_text) + 1`, and the new content is
`data[:insertion] + help_output + data[help_end_index:]`. -/
def splice (data help_output : List Char) : SpliceResult :=
  match pyFind data help_begin_text 0 with
  | none => .errorNotFound help_begin_text
  | some help_begin_index =>
    match pyFind data help_end_text help_begin_index with
    | none => .errorNotFound help_end_text
    | some help_end_index =>
      .written (data.take (help_begin_index + help_begin_text.length + 1)
        ++ help_output ++ data.drop help_end_index)

/-- Outcome of the `subprocess.run` call: either the call raises (for
example the interpreter or script cannot be executed) or it completes with
an exit status and captured standard output.  `subprocess.run` without
`check=True` does not raise for a non-zero exit status. -/
inductive RunOutcome where
  | raised
  | completed (returncode : Int) (stdout : List Char)

/-- Observable result of one run of the script over the documentation
file. -/
inductive MainResult where
  | exception
  | errorNotFound (marker : List Char)
  | wrote (data_update : List Char)
deriving DecidableEq

/-- The entry point `main` of the source (named `main_run` here since a Lean `main` must be an `IO` action), as a function of the outcome of the external
command and of the current content of `readme.rst`.  Note the exit status
of a completed run is never inspected by the source. -/
def main_run : RunOutcome → List Char → MainResult
  | .raised, _ => .exception
  | .completed _returncode stdout, data =>
    let help_output := normalize_stdout stdout
    let help_output := patch_help_test help_output
    let help_output := prepend_heading help_output
    match splice data help_output with
    | .errorNotFound marker => .errorNotFound marker
    | .written data_update => .wrote data_update

/-- Discriminator: did the run end in a file write? -/
def isWrote : MainResult → Bool
  | .wrote _ => true
  | _ => false

/-- Modelled from the spec: a text has no line ending in horizontal
whitespace when no space or tab stands immediately before a newline or at
the very end of the text. -/
def lineEndHWSFree : List Char → Bool
  | [] => true
  | [c] => !(isHWS c)
  | c :: d :: rest => !(isHWS c && d == '\n') && lineEndHWSFree (d :: rest)

/-- Claim C5: applying transformer rule 1 to the input
`usage: nitf-rename [options]` yields the introducer line `usage::`, a
blank line, and the line `       nitf-rename [options]` indented by seven
spaces. -/
theorem claim_C5 :
    replaceAll usage_pat usage_rep "usage: nitf-rename [options]".toList
      = "usage::\n\n       nitf-rename [options]".toList := by
  decide

/-- Claim C7, counterexample: the first line of the text handed to the
splicer is empty, not the section title, because the source prepends a
newline before the heading. -/
theorem claim_C7_counterexample :
    (prepend_heading "usage: example".toList).takeWhile (fun c => c != '\n') = []
    ∧ (prepend_heading "usage: example".toList).takeWhile (fun c => c != '\n')
        ≠ "Output of ``nitf-rename --help``".toList := by
  decide

/-- Claim C7 (amended): the final text handed to the splicer is a newline,
then the heading line identifying the help output of the named command,
then one blank line, then the transformed help text; so the section title
is the second line of the final text and the first line is empty. -/
theorem claim_C7_amended (help_output : List Char) :
    prepend_heading help_output
      = '\n' :: ("Output of ``nitf-rename --help``".toList
          ++ '\n' :: '\n' :: help_output)
    ∧ ("Output of ``nitf-rename --help``".toList.all (fun c => c != '\n')) = true :=
  ⟨rfl, by decide⟩

/-- An occurrence of `l` as a prefix of a tail of `s` is an occurrence of
`l` inside `s`. -/
theorem infix_of_prefix_drop {l s : List Char} {j : Nat} (h : l <+: List.drop j s) :
    l <:+: s := by
  obtain ⟨t, ht⟩ := h
  exact ⟨s.take j, t, by rw [List.append_assoc, ht, List.take_append_drop]⟩

/-- A prefix of `u ++ v`, truncated to the length of `u`, is a prefix of
`u`. -/
theorem prefix_append_left {l u v : List Char} (h : l <+: u ++ v) :
    l.take u.length <+: u := by
  have h1 : l.take u.length <+: u ++ v := (List.take_prefix _ _).trans h
  rcases List.prefix_or_prefix_of_prefix h1 (List.prefix_append u v) with h2 | h2
  · exact h2
  · have h3 : l.take u.length = u := by
      refine (h2.eq_of_length_le ?_).symm
      rw [List.length_take]
      exact Nat.min_le_left u.length l.length
    rw [h3]

/-- Two lists that agree on their first `l.length` elements admit `l` as a
prefix together. -/
theorem prefix_ext {l x y : List Char} (h : x.take l.length = y.take l.length) :
    l <+: x ↔ l <+: y := by
  rw [List.prefix_iff_eq_take, List.prefix_iff_eq_take, h]

/-- When the pattern occurs nowhere in the remaining text, the scan returns
`none`. -/
theorem findFromAux_eq_none (sub : List Char) (hsub : sub ≠ []) :
    ∀ (rest : List Char) (i : Nat), (∀ j, ¬ sub <+: rest.drop j) →
      findFromAux sub rest i = none := by
  intro rest
  induction rest with
  | nil =>
    intro i _
    simp [findFromAux, List.isEmpty_iff, hsub]
  | cons c t ih =>
    intro i h
    have h0 := h 0
    rw [List.drop_zero] at h0
    rw [findFromAux, if_neg (by simp only [List.isPrefixOf_iff_prefix]; exact h0)]
    exact ih (i + 1) fun j => by simpa using h (j + 1)

/-- When the pattern occurs at the head of `rest` and nowhere inside `a`,
the scan over `a ++ rest` returns the position right after `a`. -/
theorem findFromAux_append (sub rest : List Char) (hsub : sub ≠ [])
    (hocc : sub <+: rest) :
    ∀ (a : List Char) (i : Nat), (∀ j, j < a.length → ¬ sub <+: (a ++ rest).drop j) →
      findFromAux sub (a ++ rest) i = some (i + a.length) := by
  intro a
  induction a with
  | nil =>
    intro i _
    match rest, hocc with
    | [], hocc => exact absurd (List.prefix_nil.1 hocc) hsub
    | c :: t, hocc =>
      rw [List.nil_append, findFromAux, if_pos (by simpa using hocc)]
      simp
  | cons c a' ih =>
    intro i h
    have h0 : ¬ sub <+: (c :: a') ++ rest := by simpa using h 0 (by simp)
    rw [List.cons_append, findFromAux, if_neg (by simpa using h0)]
    rw [ih (i + 1) fun j hj => by simpa using h (j + 1) (by simpa using hj)]
    congr 1
    simp [Nat.add_comm, Nat.add_left_comm]

/-- The end marker never occurs starting inside the begin-marker line:
checked position by position on the two concrete markers. -/
theorem em_take_not_prefix :
    ∀ j, j < 19 → ¬ help_end_text.take (19 - j) <+: markerline.drop j := by
  decide

/-- The end marker never occurs at a position inside the begin-marker
line, whatever text follows that line. -/
theorem em_not_at (j : Nat) (hj : j < 19) (t : List Char) :
    ¬ help_end_text <+: markerline.drop j ++ t := by
  intro h
  have h2 := prefix_append_left h
  have hlen : (markerline.drop j).length = 19 - j := by
    have : markerline.length = 19 := by decide
    simp [this]
  rw [hlen] at h2
  exact em_take_not_prefix j hj h2

/-- Splicing over a document of the shape
`pre ++ markerline ++ mid ++ help_end_text ++ post`, where the begin marker
does not occur before the shown begin-marker line and the end marker does
not occur inside `mid` before the shown end marker, replaces exactly `mid`
by the spliced text. -/
theorem splice_shape (pre mid post X : List Char)
    (h1 : ∀ j, j < pre.length →
      ¬ help_begin_text <+: (pre ++ (markerline ++ (mid ++ (help_end_text ++ post)))).drop j)
    (h2 : ∀ j, j < mid.length → ¬ help_end_text <+: (mid ++ (help_end_text ++ post)).drop j) :
    splice (pre ++ (markerline ++ (mid ++ (help_end_text ++ post)))) X
      = .written (pre ++ (markerline ++ (X ++ (help_end_text ++ post)))) := by
  have hml : markerline.length = 19 := by decide
  have hbm : help_begin_text.length = 18 := by decide
  have hfb : pyFind (pre ++ (markerline ++ (mid ++ (help_end_text ++ post))))
      help_begin_text 0 = some pre.length := by
    rw [pyFind, List.drop_zero]
    rw [findFromAux_append help_begin_text _ (by decide)
      (by rw [markerline, List.append_assoc]; exact List.prefix_append _ _) pre 0 h1]
    rw [Nat.zero_add]
  have hR : markerline ++ (mid ++ (help_end_text ++ post))
      = (markerline ++ mid) ++ (help_end_text ++ post) := by
    rw [List.append_assoc]
  have hfe : pyFind (pre ++ (markerline ++ (mid ++ (help_end_text ++ post))))
      help_end_text pre.length = some (pre.length + (19 + mid.length)) := by
    rw [pyFind, List.drop_left]
    rw [hR]
    rw [findFromAux_append help_end_text _ (by decide) (List.prefix_append _ _)
      (markerline ++ mid) pre.length ?_]
    · congr 1
      rw [List.length_append, hml]
    · intro j hj
      rw [List.length_append, hml] at hj
      rcases Nat.lt_or_ge j 19 with hj19 | hj19
      · rw [← hR, List.drop_append_eq_append_drop,
          Nat.sub_eq_zero_of_le (by omega : j ≤ markerline.length), List.drop_zero]
        exact em_not_at j hj19 _
      · obtain ⟨j', rfl⟩ : ∃ j', j = 19 + j' := ⟨j - 19, by omega⟩
        rw [← hR, ← hml, List.drop_append]
        exact h2 j' (by omega)
  simp only [splice, hfb, hfe]
  rw [hbm]
  have htake : (pre ++ (markerline ++ (mid ++ (help_end_text ++ post)))).take
      (pre.length + 18 + 1) = pre ++ markerline := by
    rw [List.take_append_eq_append_take,
      List.take_of_length_le (by omega : pre.length ≤ pre.length + 18 + 1)]
    congr 1
    have : pre.length + 18 + 1 - pre.length = markerline.length := by omega
    rw [this, List.take_left]
  have hdrop : (pre ++ (markerline ++ (mid ++ (help_end_text ++ post)))).drop
      (pre.length + (19 + mid.length)) = help_end_text ++ post := by
    rw [List.drop_append, hR]
    have : 19 + mid.length = (markerline ++ mid).length := by
      rw [List.length_append, hml]
    rw [this, List.drop_left]
  rw [htake, hdrop]
  simp [List.append_assoc]

/-- Claim C3: a document without the begin-marker substring makes the
splicer report the begin marker as not found, and a document whose begin
marker is found at `b` but with no end-marker occurrence at or after `b`
makes it report the end marker as not found; in both cases nothing is
written. -/
theorem claim_C3 (data X : List Char) :
    (¬ help_begin_text <:+: data → splice data X = .errorNotFound help_begin_text)
    ∧ (∀ b, pyFind data help_begin_text 0 = some b →
        (∀ j, j < data.length → ¬ help_end_text <+: data.drop (b + j)) →
        splice data X = .errorNotFound help_end_text) := by
  constructor
  · intro h
    have hnone : pyFind data help_begin_text 0 = none := by
      rw [pyFind, List.drop_zero]
      exact findFromAux_eq_none help_begin_text (by decide) data 0
        fun j hp => h (infix_of_prefix_drop hp)
    simp only [splice, hnone]
  · intro b hb hnoe
    have hnone : pyFind data help_end_text b = none := by
      rw [pyFind]
      refine findFromAux_eq_none help_end_text (by decide) (data.drop b) b ?_
      intro j
      rw [List.drop_drop]
      rcases Nat.lt_or_ge j data.length with hj | hj
      · exact hnoe j hj
      · rw [List.drop_of_length_le (by omega)]
        simp only [List.prefix_nil]
        decide
    simp only [splice, hb, hnone]

/-- Claim C3, witness: a document with no begin marker, and a document with
a begin marker (at index 5) but no end marker after it. -/
theorem claim_C3_witness :
    splice "a file with no markers".toList [] = .errorNotFound help_begin_text
    ∧ splice "text\n.. BEGIN HELP TEXT\nmore text".toList []
        = .errorNotFound help_end_text :=
  ⟨(claim_C3 _ _).1 (by decide),
   (claim_C3 _ _).2 5 (by decide) (by decide)⟩

/-- The first 18 characters of a document of marker-line shape, read from a
position inside `pre`, do not depend on what follows the marker line. -/
theorem take18_shape (pre t : List Char) (j : Nat) (hj : j < pre.length) :
    ((pre ++ (markerline ++ t)).drop j).take 18
      = (pre.drop j).take 18 ++ markerline.take (18 - (pre.length - j)) := by
  rw [List.drop_append_eq_append_drop, Nat.sub_eq_zero_of_le (Nat.le_of_lt hj),
    List.drop_zero]
  rw [List.take_append_eq_append_take, List.length_drop]
  congr 1
  rw [List.take_append_eq_append_take]
  have hml : markerline.length = 19 := by decide
  have hz : 18 - (pre.length - j) - markerline.length = 0 := by rw [hml]; omega
  rw [hz, List.take_zero, List.append_nil]

/-- Absence of the begin marker at a position inside `pre` transfers
between two documents that share `pre` and the marker line. -/
theorem bm_shape_transfer (pre t t' : List Char) (j : Nat) (hj : j < pre.length)
    (h : ¬ help_begin_text <+: (pre ++ (markerline ++ t)).drop j) :
    ¬ help_begin_text <+: (pre ++ (markerline ++ t')).drop j := by
  intro h'
  apply h
  have heq : ((pre ++ (markerline ++ t')).drop j).take help_begin_text.length
      = ((pre ++ (markerline ++ t)).drop j).take help_begin_text.length := by
    have hbm : help_begin_text.length = 18 := by decide
    rw [hbm, take18_shape pre t j hj, take18_shape pre t' j hj]
  exact (prefix_ext heq).mp h'

/-- Claim C1, counterexample: a document containing both markers in order
(begin marker at index 0, end marker at index 20) whose begin marker is
followed by an extra character before the newline.  The splice keeps only
one character after the marker, so the preserved prefix is not the whole
begin-marker line: the newline of the marker line is dropped from the
result, which therefore differs from the content the claim prescribes. -/
theorem claim_C1_counterexample :
    help_begin_text <+: ".. BEGIN HELP TEXT!\n.. END HELP TEXT".toList
    ∧ help_end_text <+: (".. BEGIN HELP TEXT!\n.. END HELP TEXT".toList).drop 20
    ∧ splice ".. BEGIN HELP TEXT!\n.. END HELP TEXT".toList "Z".toList
        = .written ".. BEGIN HELP TEXT!Z.. END HELP TEXT".toList
    ∧ ".. BEGIN HELP TEXT!Z.. END HELP TEXT".toList
        ≠ ".. BEGIN HELP TEXT!\nZ.. END HELP TEXT".toList := by
  decide

/-- Claim C1 (amended): for every document of the shape
`pre ++ markerline ++ mid ++ help_end_text ++ post` — that is, the first
occurrence of the begin marker is immediately followed by a newline, and
the first end-marker occurrence at or after it is the one shown — a splice
produces exactly the original content up to and including the begin-marker
line, then the spliced text, then the content from the end marker on;
`pre`, `post` and both marker lines are unchanged. -/
theorem claim_C1_amended (pre mid post X : List Char)
    (h1 : ∀ j, j < pre.length →
      ¬ help_begin_text <+: (pre ++ (markerline ++ (mid ++ (help_end_text ++ post)))).drop j)
    (h2 : ∀ j, j < mid.length → ¬ help_end_text <+: (mid ++ (help_end_text ++ post)).drop j) :
    splice (pre ++ (markerline ++ (mid ++ (help_end_text ++ post)))) X
      = .written (pre ++ (markerline ++ (X ++ (help_end_text ++ post)))) :=
  splice_shape pre mid post X h1 h2

/-- Claim C1, witness at a concrete document. -/
theorem claim_C1_witness :
    (∀ j, j < ("Top\n".toList).length →
      ¬ help_begin_text <+:
        ("Top\n".toList ++ (markerline ++ ("old\n".toList
          ++ (help_end_text ++ "\nBottom\n".toList)))).drop j)
    ∧ (∀ j, j < ("old\n".toList).length →
      ¬ help_end_text <+: ("old\n".toList ++ (help_end_text ++ "\nBottom\n".toList)).drop j)
    ∧ splice ("Top\n".toList ++ (markerline ++ ("old\n".toList
          ++ (help_end_text ++ "\nBottom\n".toList)))) "NEW\n".toList
        = .written ("Top\n".toList ++ (markerline ++ ("NEW\n".toList
          ++ (help_end_text ++ "\nBottom\n".toList)))) :=
  ⟨by decide, by decide, claim_C1_amended _ _ _ _ (by decide) (by decide)⟩

/-- Claim C2: splicing is idempotent.  For a document of marker-line shape
whose begin marker is the first begin-marker occurrence, whose shown end
marker is the first one at or after it, and where the spliced text `X`
leaves the markers intact (no end-marker occurrence appears inside the
spliced region before the preserved end marker), splicing `X`, and then
splicing `X` again into the result, both give the same content. -/
theorem claim_C2 (pre mid post X : List Char)
    (h1 : ∀ j, j < pre.length →
      ¬ help_begin_text <+: (pre ++ (markerline ++ (mid ++ (help_end_text ++ post)))).drop j)
    (h2 : ∀ j, j < mid.length → ¬ help_end_text <+: (mid ++ (help_end_text ++ post)).drop j)
    (h3 : ∀ j, j < X.length → ¬ help_end_text <+: (X ++ (help_end_text ++ post)).drop j) :
    splice (pre ++ (markerline ++ (mid ++ (help_end_text ++ post)))) X
      = .written (pre ++ (markerline ++ (X ++ (help_end_text ++ post))))
    ∧ splice (pre ++ (markerline ++ (X ++ (help_end_text ++ post)))) X
      = .written (pre ++ (markerline ++ (X ++ (help_end_text ++ post)))) := by
  constructor
  · exact splice_shape pre mid post X h1 h2
  · refine splice_shape pre X post X ?_ h3
    intro j hj
    exact bm_shape_transfer pre (mid ++ (help_end_text ++ post))
      (X ++ (help_end_text ++ post)) j hj (h1 j hj)

/-- Claim C2, witness at a concrete document and spliced text. -/
theorem claim_C2_witness :
    (∀ j, j < ("Head\n".toList).length →
      ¬ help_begin_text <+:
        ("Head\n".toList ++ (markerline ++ ("stale\n".toList
          ++ (help_end_text ++ "\nTail\n".toList)))).drop j)
    ∧ (∀ j, j < ("stale\n".toList).length →
      ¬ help_end_text <+: ("stale\n".toList ++ (help_end_text ++ "\nTail\n".toList)).drop j)
    ∧ (∀ j, j < ("fresh\n".toList).length →
      ¬ help_end_text <+: ("fresh\n".toList ++ (help_end_text ++ "\nTail\n".toList)).drop j)
    ∧ (splice ("Head\n".toList ++ (markerline ++ ("stale\n".toList
          ++ (help_end_text ++ "\nTail\n".toList)))) "fresh\n".toList
        = .written ("Head\n".toList ++ (markerline ++ ("fresh\n".toList
          ++ (help_end_text ++ "\nTail\n".toList))))
      ∧ splice ("Head\n".toList ++ (markerline ++ ("fresh\n".toList
          ++ (help_end_text ++ "\nTail\n".toList)))) "fresh\n".toList
        = .written ("Head\n".toList ++ (markerline ++ ("fresh\n".toList
          ++ (help_end_text ++ "\nTail\n".toList))))) :=
  ⟨by decide, by decide, by decide,
   claim_C2 _ _ _ _ (by decide) (by decide) (by decide)⟩

/-- Claim C4, counterexample: a document whose begin marker has extra text
on its line.  The insertion point is one character past the marker, not
past the line terminator, so the preserved prefix is the marker plus one
character, not the whole begin-marker line. -/
theorem claim_C4_counterexample :
    splice ".. BEGIN HELP TEXT EXTRA\n.. END HELP TEXT".toList "x".toList
      = .written ".. BEGIN HELP TEXT x.. END HELP TEXT".toList
    ∧ ".. BEGIN HELP TEXT x.. END HELP TEXT".toList
        ≠ ".. BEGIN HELP TEXT EXTRA\nx.. END HELP TEXT".toList := by
  decide

/-- Claim C4 (amended): the insertion point is always the index of the
begin marker plus the marker length plus one, whatever character follows
the marker: whenever the first begin-marker occurrence sits at the end of
`pre` and is followed by any character `c`, the preserved prefix is
exactly `pre`, the marker, and that single character — the whole
begin-marker line only when `c` is the line terminator. -/
theorem claim_C4_amended (pre rest X : List Char) (c : Char) (e : Nat)
    (h1 : ∀ j, j < pre.length →
      ¬ help_begin_text <+: (pre ++ (help_begin_text ++ c :: rest)).drop j)
    (he : pyFind (pre ++ (help_begin_text ++ c :: rest)) help_end_text pre.length
      = some e) :
    splice (pre ++ (help_begin_text ++ c :: rest)) X
      = .written ((pre ++ (help_begin_text ++ [c])) ++ X
          ++ (pre ++ (help_begin_text ++ c :: rest)).drop e) := by
  have hbm : help_begin_text.length = 18 := by decide
  have hfb : pyFind (pre ++ (help_begin_text ++ c :: rest)) help_begin_text 0
      = some pre.length := by
    rw [pyFind, List.drop_zero]
    rw [findFromAux_append help_begin_text _ (by decide) (List.prefix_append _ _) pre 0 h1]
    rw [Nat.zero_add]
  simp only [splice, hfb, he]
  have htake : (pre ++ (help_begin_text ++ c :: rest)).take
      (pre.length + help_begin_text.length + 1) = pre ++ (help_begin_text ++ [c]) := by
    rw [hbm, List.take_append_eq_append_take,
      List.take_of_length_le (by omega : pre.length ≤ pre.length + 18 + 1)]
    congr 1
    have h19 : pre.length + 18 + 1 - pre.length = 19 := by omega
    rw [h19, List.take_append_eq_append_take,
      List.take_of_length_le (by rw [hbm]; omega : help_begin_text.length ≤ 19)]
    rw [hbm]
    simp
  rw [htake]

/-- Claim C4, witness at a concrete document whose marker is followed by an
exclamation mark instead of a newline. -/
theorem claim_C4_witness :
    (∀ j, j < ("P\n".toList).length →
      ¬ help_begin_text <+:
        ("P\n".toList ++ (help_begin_text ++ '!' :: "\n.. END HELP TEXT\nQ".toList)).drop j)
    ∧ pyFind ("P\n".toList ++ (help_begin_text ++ '!' :: "\n.. END HELP TEXT\nQ".toList))
        help_end_text ("P\n".toList).length = some 22
    ∧ splice ("P\n".toList ++ (help_begin_text ++ '!' :: "\n.. END HELP TEXT\nQ".toList))
        "x".toList
      = .written (("P\n".toList ++ (help_begin_text ++ ['!'])) ++ "x".toList
          ++ ("P\n".toList ++ (help_begin_text ++ '!' :: "\n.. END HELP TEXT\nQ".toList)).drop 22) :=
  ⟨by decide, by decide, claim_C4_amended _ _ _ _ _ (by decide) (by decide)⟩

/-- The result of `replaceAllAux` does not depend on the fuel, as long as
the fuel dominates the length of the text. -/
theorem replaceAllAux_congr (pat rep : List Char) :
    ∀ n₁ n₂ s, s.length ≤ n₁ → s.length ≤ n₂ →
      replaceAllAux pat rep n₁ s = replaceAllAux pat rep n₂ s := by
  intro n₁
  induction n₁ with
  | zero =>
    intro n₂ s h1 _
    have hs : s = [] := List.length_eq_zero.1 (Nat.le_zero.1 h1)
    subst hs
    simp [replaceAllAux]
  | succ f ih =>
    intro n₂ s h1 h2
    cases s with
    | nil => simp [replaceAllAux]
    | cons c rest =>
      cases n₂ with
      | zero => simp at h2
      | succ g =>
        rw [replaceAllAux, replaceAllAux]
        by_cases hc : (!pat.isEmpty && pat.isPrefixOf (c :: rest)) = true
        · rw [if_pos hc, if_pos hc]
          congr 1
          have hne : pat ≠ [] := by
            intro hnil
            subst hnil
            simp at hc
          have hpos : 1 ≤ pat.length :=
            Nat.pos_of_ne_zero fun h0 => hne (List.length_eq_zero.1 h0)
          have hd : ((c :: rest).drop pat.length).length ≤ rest.length := by
            rw [List.length_drop, List.length_cons]
            omega
          exact ih _ _ (le_trans hd (by simpa using h1)) (le_trans hd (by simpa using h2))
        · rw [if_neg hc, if_neg hc]
          congr 1
          exact ih g rest (by simpa using h1) (by simpa using h2)

/-- `replaceAll` on the empty text. -/
theorem replaceAll_nil (pat rep : List Char) : replaceAll pat rep [] = [] := by
  simp [replaceAll, replaceAllAux]

/-- `replaceAll` when the pattern matches at the current position: emit the
replacement and continue after the matched occurrence. -/
theorem replaceAll_cons_pos (pat rep : List Char) (c : Char) (rest : List Char)
    (hne : pat ≠ []) (hpre : pat <+: c :: rest) :
    replaceAll pat rep (c :: rest)
      = rep ++ replaceAll pat rep ((c :: rest).drop pat.length) := by
  have hc : (!pat.isEmpty && pat.isPrefixOf (c :: rest)) = true := by
    simp [List.isEmpty_iff, hne, List.isPrefixOf_iff_prefix, hpre]
  rw [replaceAll, List.length_cons, replaceAllAux, if_pos hc]
  congr 1
  apply replaceAllAux_congr
  · rw [List.length_drop, List.length_cons]
    have hpos : 1 ≤ pat.length :=
      Nat.pos_of_ne_zero fun h0 => hne (List.length_eq_zero.1 h0)
    omega
  · exact le_rfl

/-- `replaceAll` when the pattern matches at the head of a non-empty text,
stated without exposing the cons cell. -/
theorem replaceAll_pos (pat rep s : List Char) (hne : pat ≠ []) (hpre : pat <+: s) :
    replaceAll pat rep s = rep ++ replaceAll pat rep (s.drop pat.length) := by
  cases s with
  | nil => exact absurd (List.prefix_nil.1 hpre) hne
  | cons c rest => exact replaceAll_cons_pos pat rep c rest hne hpre

/-- `replaceAll` when the pattern does not match at the current position:
copy one character. -/
theorem replaceAll_cons_neg (pat rep : List Char) (c : Char) (rest : List Char)
    (h : ¬ pat <+: c :: rest) :
    replaceAll pat rep (c :: rest) = c :: replaceAll pat rep rest := by
  have hpre_b : pat.isPrefixOf (c :: rest) = false := by
    cases hb : pat.isPrefixOf (c :: rest)
    · rfl
    · exact absurd (List.isPrefixOf_iff_prefix.1 hb) h
  have hc : (!pat.isEmpty && pat.isPrefixOf (c :: rest)) = false := by
    rw [hpre_b, Bool.and_false]
  rw [replaceAll, List.length_cons, replaceAllAux, if_neg (by rw [hc]; simp)]
  rfl

/-- When the pattern matches at no position before `n`, the first `n`
characters are copied verbatim. -/
theorem replaceAll_skip (pat rep : List Char) :
    ∀ n s, n ≤ s.length → (∀ p, p < n → ¬ pat <+: s.drop p) →
      replaceAll pat rep s = s.take n ++ replaceAll pat rep (s.drop n) := by
  intro n
  induction n with
  | zero => intro s _ _; simp
  | succ m ih =>
    intro s hlen h
    cases s with
    | nil => simp at hlen
    | cons c rest =>
      have h0 : ¬ pat <+: c :: rest := by simpa using h 0 (Nat.succ_pos m)
      rw [replaceAll_cons_neg _ _ _ _ h0]
      rw [ih rest (by simpa using hlen) fun p hp => by simpa using h (p + 1) (by omega)]
      simp

/-- A text in which the pattern occurs nowhere is returned unchanged:
Python `s.replace(pat, rep) == s` when `pat not in s`. -/
theorem replaceAll_no_occurrence (pat rep s : List Char) (h : ¬ pat <:+: s) :
    replaceAll pat rep s = s := by
  rw [replaceAll_skip pat rep s.length s le_rfl
    fun p _ hp => h (infix_of_prefix_drop hp)]
  rw [List.take_length, List.drop_length, replaceAll_nil, List.append_nil]

/-- When the first occurrence of the pattern in `a ++ pat ++ b` is the one
shown, `replaceAll` copies `a`, emits the replacement, and continues on
`b`. -/
theorem replaceAll_append_pat (pat rep : List Char) (hne : pat ≠ []) :
    ∀ a b, (∀ j, j < a.length → ¬ pat <+: (a ++ (pat ++ b)).drop j) →
      replaceAll pat rep (a ++ (pat ++ b)) = a ++ (rep ++ replaceAll pat rep b) := by
  intro a
  induction a with
  | nil =>
    intro b _
    rw [List.nil_append, List.nil_append,
      replaceAll_pos pat rep (pat ++ b) hne (List.prefix_append _ _), List.drop_left]
  | cons c a' ih =>
    intro b h
    have h0 : ¬ pat <+: c :: (a' ++ (pat ++ b)) := by simpa using h 0 (by simp)
    rw [List.cons_append, replaceAll_cons_neg _ _ _ _ h0]
    rw [ih b fun j hj => by simpa using h (j + 1) (by simpa using hj)]
    rw [List.cons_append]

/-- An occurrence inside the tail is an occurrence in the whole list. -/
theorem infix_lift_cons {l t : List Char} (c : Char) (h : l <:+: t) :
    l <:+: c :: t := by
  obtain ⟨u, v, huv⟩ := h
  exact ⟨c :: u, v, by rw [List.cons_append, List.cons_append, huv]⟩

/-- An occurrence inside the right part of an append is an occurrence in
the whole list. -/
theorem infix_lift_append {l t : List Char} (w : List Char) (h : l <:+: t) :
    l <:+: w ++ t := by
  obtain ⟨u, v, huv⟩ := h
  exact ⟨w ++ u, v, by rw [List.append_assoc w u l, List.append_assoc w (u ++ l) v, huv]⟩

/-- A prefix is in particular an occurrence. -/
theorem infix_of_prefix_whole {l s : List Char} (h : l <+: s) : l <:+: s := by
  obtain ⟨w, hw⟩ := h
  exact ⟨[], w, by simpa using hw⟩

/-- A prefix of an append either stays inside the left part or covers it
entirely. -/
theorem append_prefix_cases {l x y : List Char} (h : l <+: x ++ y) :
    l <+: x ∨ ∃ l₂, l = x ++ l₂ ∧ l₂ <+: y := by
  obtain ⟨t, ht⟩ := h
  rcases List.append_eq_append_iff.1 ht with ⟨a', ha1, _⟩ | ⟨c', hc1, hc2⟩
  · exact Or.inl ⟨a', ha1.symm⟩
  · exact Or.inr ⟨c', hc1, ⟨t, hc2.symm⟩⟩

/-- An occurrence in `a ++ b` lies inside `a`, lies inside `b`, or spans
the border: a non-empty suffix of `a` followed by a non-empty prefix of
`b`. -/
theorem infix_append_cases {q a b : List Char} (h : q <:+: a ++ b) :
    q <:+: a ∨ q <:+: b
      ∨ ∃ q₁ q₂, q = q₁ ++ q₂ ∧ q₁ ≠ [] ∧ q₂ ≠ [] ∧ q₁ <:+ a ∧ q₂ <+: b := by
  induction a generalizing q with
  | nil => exact Or.inr (Or.inl (by simpa using h))
  | cons c a' ih =>
    rcases List.infix_cons_iff.1 (by simpa using h) with hp | hi
    · cases q with
      | nil => exact Or.inl List.nil_infix
      | cons q0 qt =>
        obtain ⟨t, ht⟩ := hp
        rw [List.cons_append] at ht
        injection ht with hq0 hrest
        have hqt : qt <+: a' ++ b := ⟨t, hrest⟩
        subst hq0
        rcases append_prefix_cases hqt with h1 | ⟨l₂, hl2, hl2p⟩
        · exact Or.inl (infix_of_prefix_whole (List.cons_prefix_cons.2 ⟨rfl, h1⟩))
        · by_cases hl2e : l₂ = []
          · subst hl2e
            rw [List.append_nil] at hl2
            subst hl2
            exact Or.inl (List.infix_refl _)
          · refine Or.inr (Or.inr ⟨q0 :: a', l₂, ?_, by simp, hl2e, List.suffix_refl _, hl2p⟩)
            rw [hl2, List.cons_append]
    · rcases ih hi with h1 | h2 | ⟨q₁, q₂, hq, hne1, hne2, hsuf, hpre⟩
      · exact Or.inl (infix_lift_cons c h1)
      · exact Or.inr (Or.inl h2)
      · exact Or.inr (Or.inr ⟨q₁, q₂, hq, hne1, hne2, hsuf.trans (List.suffix_cons c a'), hpre⟩)

/-- When the pattern occurs in the text, the replacement occurs in the
result of `replaceAll`. -/
theorem replaceAll_contains_rep (pat rep : List Char) (hne : pat ≠ []) :
    ∀ s, pat <:+: s → rep <:+: replaceAll pat rep s := by
  suffices H : ∀ n s, s.length ≤ n → pat <:+: s → rep <:+: replaceAll pat rep s from
    fun s => H s.length s le_rfl
  intro n
  induction n with
  | zero =>
    intro s h1 h2
    have hs : s = [] := List.length_eq_zero.1 (Nat.le_zero.1 h1)
    subst hs
    exact absurd (List.infix_nil.1 h2) hne
  | succ m ih =>
    intro s hlen hocc
    by_cases hpre : pat <+: s
    · rw [replaceAll_pos pat rep s hne hpre]
      exact infix_of_prefix_whole (List.prefix_append _ _)
    · cases s with
      | nil => exact absurd (List.infix_nil.1 hocc) hne
      | cons c rest =>
        have hocc' : pat <:+: rest := by
          rcases List.infix_cons_iff.1 hocc with h | h
          · exact absurd h hpre
          · exact h
        rw [replaceAll_cons_neg _ _ _ _ hpre]
        exact infix_lift_cons c (ih rest (by simpa using hlen) hocc')

/-- A prefix of the output of `replaceAll` that does not contain the head
character of the replacement is a prefix of the input. -/
theorem prefix_replaceAll_back (pat : List Char) (r0 : Char) (rt : List Char)
    (hne : pat ≠ []) :
    ∀ n s q, s.length ≤ n → r0 ∉ q → q <+: replaceAll pat (r0 :: rt) s → q <+: s := by
  intro n
  induction n with
  | zero =>
    intro s q h1 _ hq
    have hs : s = [] := List.length_eq_zero.1 (Nat.le_zero.1 h1)
    subst hs
    rwa [replaceAll_nil] at hq
  | succ m ih =>
    intro s q hlen hr hq
    cases s with
    | nil => rwa [replaceAll_nil] at hq
    | cons c rest =>
      by_cases hpre : pat <+: c :: rest
      · rw [replaceAll_pos _ _ _ hne hpre, List.cons_append] at hq
        cases q with
        | nil => exact List.nil_prefix
        | cons q0 qt =>
          rw [List.cons_prefix_cons] at hq
          exact absurd (hq.1 ▸ List.mem_cons_self q0 qt) hr
      · rw [replaceAll_cons_neg _ _ _ _ hpre] at hq
        cases q with
        | nil => exact List.nil_prefix
        | cons q0 qt =>
          rw [List.cons_prefix_cons] at hq ⊢
          refine ⟨hq.1, ih rest qt (by simpa using hlen) ?_ hq.2⟩
          exact fun hm => hr (List.mem_cons_of_mem _ hm)

/-- No occurrence of the pattern survives `replaceAll`, when the head of
the pattern does not occur in the replacement and the head of the
replacement does not occur in the pattern. -/
theorem replaceAll_no_residual (p0 : Char) (pt : List Char) (r0 : Char) (rt : List Char)
    (h2 : p0 ∉ r0 :: rt) (h3 : r0 ∉ p0 :: pt) :
    ∀ s, ¬ (p0 :: pt) <:+: replaceAll (p0 :: pt) (r0 :: rt) s := by
  suffices H : ∀ n s, s.length ≤ n → ¬ (p0 :: pt) <:+: replaceAll (p0 :: pt) (r0 :: rt) s from
    fun s => H s.length s le_rfl
  intro n
  induction n with
  | zero =>
    intro s h1
    have hs : s = [] := List.length_eq_zero.1 (Nat.le_zero.1 h1)
    subst hs
    rw [replaceAll_nil]
    simp
  | succ m ih =>
    intro s hlen
    cases s with
    | nil => rw [replaceAll_nil]; simp
    | cons c rest =>
      by_cases hpre : (p0 :: pt) <+: c :: rest
      · rw [replaceAll_pos _ _ _ (by simp) hpre]
        intro hq
        rcases infix_append_cases hq with hL | hR | ⟨q₁, q₂, hsplit, hn1, _, hsuf, _⟩
        · obtain ⟨u, v, huv⟩ := hL
          apply h2
          rw [← huv]
          simp
        · refine ih _ ?_ hR
          have hle : ((c :: rest).drop (p0 :: pt).length).length ≤ rest.length := by
            rw [List.length_drop, List.length_cons]
            have h1 : 1 ≤ (p0 :: pt).length := by simp
            omega
          have hr : rest.length ≤ m := by
            rw [List.length_cons] at hlen
            omega
          exact le_trans hle hr
        · cases q₁ with
          | nil => exact hn1 rfl
          | cons x xt =>
            rw [List.cons_append] at hsplit
            injection hsplit with hx _
            apply h2
            obtain ⟨u, hu⟩ := hsuf
            rw [← hu, hx]
            simp
      · rw [replaceAll_cons_neg _ _ _ _ hpre]
        intro hq
        rcases List.infix_cons_iff.1 hq with hp | hi
        · rw [List.cons_prefix_cons] at hp
          obtain ⟨hc, hpt⟩ := hp
          have hr0pt : r0 ∉ pt := fun hm => h3 (List.mem_cons_of_mem _ hm)
          have hback : pt <+: rest :=
            prefix_replaceAll_back (p0 :: pt) r0 rt (by simp) rest.length rest pt
              le_rfl hr0pt hpt
          exact hpre (List.cons_prefix_cons.2 ⟨hc, hback⟩)
        · exact ih rest (by simpa using hlen) hi

/-- An occurrence of `q` survives `replaceAll` with a pattern that can
never intersect an occurrence of `q`: the pattern does not start inside a
`q` occurrence (`hA`), no suffix of the pattern is a prefix of `q` (`hB`),
and `q` does not sit inside the pattern (`hC`). -/
theorem replaceAll_keeps (pat rep q : List Char) (hpat : pat ≠ []) (hq : q ≠ [])
    (hA : ∀ p, p < q.length → ¬ pat <+: q.drop p ∧ ¬ q.drop p <+: pat)
    (hB : ∀ m, m < pat.length → ¬ pat.drop m <+: q)
    (hC : ¬ q <:+: pat) :
    ∀ s, q <:+: s → q <:+: replaceAll pat rep s := by
  suffices H : ∀ n s, s.length ≤ n → q <:+: s → q <:+: replaceAll pat rep s from
    fun s => H s.length s le_rfl
  intro n
  induction n with
  | zero =>
    intro s h1 h2
    have hs : s = [] := List.length_eq_zero.1 (Nat.le_zero.1 h1)
    subst hs
    exact absurd (List.infix_nil.1 h2) hq
  | succ m ih =>
    intro s hlen hocc
    by_cases hpre : pat <+: s
    · obtain ⟨s₂, hs2⟩ := hpre
      rw [replaceAll_pos pat rep s hpat ⟨s₂, hs2⟩]
      rw [← hs2] at hocc
      rcases infix_append_cases hocc with hL | hR | ⟨q₁, q₂, hsplit, hn1, _, hsuf, _⟩
      · exact absurd hL hC
      · have hdrop : s.drop pat.length = s₂ := by rw [← hs2, List.drop_left]
        rw [hdrop]
        refine infix_lift_append rep (ih s₂ ?_ hR)
        have h1 : 1 ≤ pat.length :=
          Nat.pos_of_ne_zero fun h0 => hpat (List.length_eq_zero.1 h0)
        have h2 : s.length = pat.length + s₂.length := by
          rw [← hs2, List.length_append]
        omega
      · exfalso
        have hm : q₁ = pat.drop (pat.length - q₁.length) := List.suffix_iff_eq_drop.1 hsuf
        have hmlt : pat.length - q₁.length < pat.length := by
          have hlen1 : 1 ≤ q₁.length := by
            cases q₁ with
            | nil => exact absurd rfl hn1
            | cons x xt => simp
          have hle : q₁.length ≤ pat.length := hsuf.length_le
          omega
        exact hB _ hmlt (hm ▸ (hsplit ▸ List.prefix_append q₁ q₂))
    · cases s with
      | nil => exact absurd (List.infix_nil.1 hocc) hq
      | cons c rest =>
        rcases List.infix_cons_iff.1 hocc with hp | hi
        · have hskip : ∀ p, p < q.length → ¬ pat <+: (c :: rest).drop p := by
            intro p hplt hpat_at
            rcases Nat.eq_zero_or_pos p with hp0 | hp1
            · subst hp0
              exact hpre (by simpa using hpat_at)
            · have hqdrop : q.drop p <+: (c :: rest).drop p := hp.drop p
              rcases List.prefix_or_prefix_of_prefix hpat_at hqdrop with h1 | h1
              · exact (hA p hplt).1 h1
              · exact (hA p hplt).2 h1
          rw [replaceAll_skip pat rep q.length (c :: rest) hp.length_le hskip]
          have htak : (c :: rest).take q.length = q :=
            (List.prefix_iff_eq_take.1 hp).symm
          rw [htak]
          exact infix_of_prefix_whole (List.prefix_append _ _)
        · rw [replaceAll_cons_neg _ _ _ _ hpre]
          exact infix_lift_cons c (ih rest (by simpa using hlen) hi)

/-- Claim C10: transformer rule 1 is a global substring replacement — every
occurrence of `usage: nitf-rename`, wherever it stands in the text and
however many there are, is replaced by the multi-line header, not only a
usage-line prefix at the start.  Stated for a text with two occurrences
whose shown occurrences are leftmost in their segments. -/
theorem claim_C10 (a b c : List Char)
    (ha : ∀ j, j < a.length →
      ¬ usage_pat <+: (a ++ (usage_pat ++ (b ++ (usage_pat ++ c)))).drop j)
    (hb : ∀ j, j < b.length → ¬ usage_pat <+: (b ++ (usage_pat ++ c)).drop j) :
    replaceAll usage_pat usage_rep (a ++ (usage_pat ++ (b ++ (usage_pat ++ c))))
      = a ++ (usage_rep ++ (b ++ (usage_rep ++ replaceAll usage_pat usage_rep c))) := by
  rw [replaceAll_append_pat usage_pat usage_rep (by decide) a _ ha]
  rw [replaceAll_append_pat usage_pat usage_rep (by decide) b c hb]

/-- Claim C10, witness: two occurrences, neither at the start of the
text. -/
theorem claim_C10_witness :
    (∀ j, j < ("Intro:\n".toList).length →
      ¬ usage_pat <+: ("Intro:\n".toList ++ (usage_pat ++ (" [options]\nAnd again ".toList
        ++ (usage_pat ++ " --verbose\n".toList)))).drop j)
    ∧ (∀ j, j < (" [options]\nAnd again ".toList).length →
      ¬ usage_pat <+: (" [options]\nAnd again ".toList
        ++ (usage_pat ++ " --verbose\n".toList)).drop j)
    ∧ replaceAll usage_pat usage_rep ("Intro:\n".toList ++ (usage_pat
        ++ (" [options]\nAnd again ".toList ++ (usage_pat ++ " --verbose\n".toList))))
      = "Intro:\n".toList ++ (usage_rep ++ (" [options]\nAnd again ".toList
        ++ (usage_rep ++ replaceAll usage_pat usage_rep " --verbose\n".toList))) :=
  ⟨by decide, by decide, claim_C10 _ _ _ (by decide) (by decide)⟩

/-- The brace-delimited choice pattern as an explicit cons cell. -/
theorem choices_pat_cons :
    choices_pat = '\x7b' :: "none,auto,git,hg,svn\x7d".toList := by decide

/-- The angle-bracket replacement as an explicit cons cell. -/
theorem choices_rep_cons :
    choices_rep = '<' :: "none,auto,git,hg,svn>".toList := by decide

/-- Claim C6: for every input containing the brace-delimited choice token,
the transformer output contains the angle-bracket form and no occurrence
of the brace form survives; for every input without the token, rule 2
returns its input unchanged. -/
theorem claim_C6 (s : List Char) :
    (choices_pat <:+: s →
      choices_rep <:+: patch_help_test s ∧ ¬ choices_pat <:+: patch_help_test s)
    ∧ (¬ choices_pat <:+: s → replaceAll choices_pat choices_rep s = s) := by
  constructor
  · intro hin
    have h1 : choices_pat <:+: replaceAll usage_pat usage_rep s :=
      replaceAll_keeps usage_pat usage_rep choices_pat (by decide) (by decide)
        (by decide) (by decide) (by decide) s hin
    constructor
    · simp only [patch_help_test]
      exact replaceAll_contains_rep choices_pat choices_rep (by decide) _ h1
    · simp only [patch_help_test]
      rw [choices_pat_cons, choices_rep_cons]
      exact replaceAll_no_residual _ _ _ _ (by decide) (by decide) _
  · intro hout
    exact replaceAll_no_occurrence choices_pat choices_rep s hout

/-- Claim C6, witness: an input with the token and an input without it. -/
theorem claim_C6_witness :
    (choices_rep <:+: patch_help_test "pick \x7bnone,auto,git,hg,svn\x7d here".toList
      ∧ ¬ choices_pat <:+: patch_help_test "pick \x7bnone,auto,git,hg,svn\x7d here".toList)
    ∧ replaceAll choices_pat choices_rep "no braces at all".toList
        = "no braces at all".toList :=
  ⟨(claim_C6 _).1 (by decide), (claim_C6 _).2 (by decide)⟩

/-- `stripTrailingHWS` keeps a character that is not horizontal
whitespace. -/
theorem strip_cons_nonws (c : Char) (rest : List Char) (h : isHWS c = false) :
    stripTrailingHWS (c :: rest) = c :: stripTrailingHWS rest := by
  simp [stripTrailingHWS, h]

/-- `stripTrailingHWS` drops a space or tab whose whole tail is dropped. -/
theorem strip_cons_ws_nil (c : Char) (rest : List Char) (h : isHWS c = true)
    (hout : stripTrailingHWS rest = []) :
    stripTrailingHWS (c :: rest) = [] := by
  simp [stripTrailingHWS, h, hout]

/-- `stripTrailingHWS` drops a space or tab standing before a newline. -/
theorem strip_cons_ws_nl (c : Char) (rest t : List Char) (h : isHWS c = true)
    (hout : stripTrailingHWS rest = '\n' :: t) :
    stripTrailingHWS (c :: rest) = '\n' :: t := by
  simp [stripTrailingHWS, h, hout]

/-- `stripTrailingHWS` keeps a space or tab whose cleaned tail starts with
a character other than a newline. -/
theorem strip_cons_ws_other (c : Char) (rest : List Char) (d : Char) (t : List Char)
    (h : isHWS c = true) (hd : d ≠ '\n') (hout : stripTrailingHWS rest = d :: t) :
    stripTrailingHWS (c :: rest) = c :: d :: t := by
  simp only [stripTrailingHWS, hout, h, if_pos]
  split
  · rename_i heq
    exact (List.cons_ne_nil d t heq).elim
  · rename_i tail heq
    injection heq with h1 _
    exact absurd h1 hd
  · rfl

/-- The output of `stripTrailingHWS` has no space or tab immediately
before a newline or at the end of the text. -/
theorem strip_clean : ∀ s, lineEndHWSFree (stripTrailingHWS s) = true := by
  intro s
  induction s with
  | nil => rfl
  | cons c rest ih =>
    cases hcase : isHWS c with
    | false =>
      rw [strip_cons_nonws c rest hcase]
      cases hout : stripTrailingHWS rest with
      | nil => simp [lineEndHWSFree, hcase]
      | cons d t =>
        rw [hout] at ih
        simp [lineEndHWSFree, hcase, ih]
    | true =>
      cases hout : stripTrailingHWS rest with
      | nil => rw [strip_cons_ws_nil c rest hcase hout]; rfl
      | cons d t =>
        rw [hout] at ih
        by_cases hd : d = '\n'
        · subst hd
          rw [strip_cons_ws_nl c rest t hcase hout]
          exact ih
        · rw [strip_cons_ws_other c rest d t hcase hd hout]
          simp only [lineEndHWSFree, ih, Bool.and_eq_true]
          have : (d == '\n') = false := by
            cases hb : d == '\n'
            · rfl
            · exact absurd (by simpa using hb) hd
          simp [this]

/-- `stripTrailingHWS` commutes with appending the final two newlines:
a run of spaces or tabs at the end of `r` is dropped either way (before
the appended newline on the left, at the end of the text on the right). -/
theorem strip_append_nn :
    ∀ r, stripTrailingHWS (r ++ ['\n', '\n']) = stripTrailingHWS r ++ ['\n', '\n'] := by
  intro r
  induction r with
  | nil => rfl
  | cons c r' ih =>
    cases hcase : isHWS c with
    | false =>
      rw [List.cons_append, strip_cons_nonws c _ hcase, ih,
        strip_cons_nonws c r' hcase, List.cons_append]
    | true =>
      rw [List.cons_append]
      cases hout : stripTrailingHWS r' with
      | nil =>
        have h1 : stripTrailingHWS (r' ++ ['\n', '\n']) = '\n' :: ['\n'] := by
          rw [ih, hout]; rfl
        rw [strip_cons_ws_nl c _ _ hcase h1, strip_cons_ws_nil c r' hcase hout]
        rfl
      | cons d t =>
        by_cases hd : d = '\n'
        · subst hd
          have h1 : stripTrailingHWS (r' ++ ['\n', '\n']) = '\n' :: (t ++ ['\n', '\n']) := by
            rw [ih, hout]; rfl
          rw [strip_cons_ws_nl c _ _ hcase h1, strip_cons_ws_nl c r' t hcase hout,
            List.cons_append]
        · have h1 : stripTrailingHWS (r' ++ ['\n', '\n']) = d :: (t ++ ['\n', '\n']) := by
            rw [ih, hout, List.cons_append]
          rw [strip_cons_ws_other c _ d _ hcase hd h1,
            strip_cons_ws_other c r' d t hcase hd hout]
          simp

/-- `stripTrailingHWS` does not change the last character of a text whose
last character is not horizontal whitespace. -/
theorem strip_getLast :
    ∀ r : List Char, (∀ x, r.getLast? = some x → isHWS x = false) →
      (stripTrailingHWS r).getLast? = r.getLast? := by
  intro r
  induction r with
  | nil => intro _; rfl
  | cons c r' ih =>
    intro h
    cases r' with
    | nil =>
      have hc : isHWS c = false := h c rfl
      rw [strip_cons_nonws c [] hc]
      rfl
    | cons b r'' =>
      have hlast : (c :: b :: r'').getLast? = (b :: r'').getLast? :=
        List.getLast?_cons_cons
      have h' : ∀ x, (b :: r'').getLast? = some x → isHWS x = false := by
        intro x hx
        exact h x (by rw [hlast, hx])
      have ihr := ih h'
      obtain ⟨y, hy⟩ : ∃ y, (b :: r'').getLast? = some y := by
        cases hby : (b :: r'').getLast? with
        | none => simp [List.getLast?_eq_none_iff] at hby
        | some y => exact ⟨y, rfl⟩
      have hsne : stripTrailingHWS (b :: r'') ≠ [] := by
        intro hnil
        rw [hnil] at ihr
        rw [hy] at ihr
        simp at ihr
      obtain ⟨d, t, hdt⟩ : ∃ d t, stripTrailingHWS (b :: r'') = d :: t := by
        cases hs : stripTrailingHWS (b :: r'') with
        | nil => exact absurd hs hsne
        | cons d t => exact ⟨d, t, rfl⟩
      cases hcase : isHWS c with
      | false =>
        rw [strip_cons_nonws c _ hcase, hlast, ← ihr, hdt]
        exact List.getLast?_cons_cons
      | true =>
        by_cases hd : d = '\n'
        · subst hd
          rw [strip_cons_ws_nl c _ t hcase hdt, hlast, ← ihr, hdt]
        · rw [strip_cons_ws_other c _ d t hcase hd hdt, hlast, ← ihr, hdt]
          exact List.getLast?_cons_cons

/-- The head of what `dropWhile` leaves does not satisfy the predicate. -/
theorem dropWhile_head_not (p : Char → Bool) :
    ∀ (l : List Char) (x : Char), (l.dropWhile p).head? = some x → p x = false := by
  intro l
  induction l with
  | nil => intro x hx; simp [List.dropWhile] at hx
  | cons c t ih =>
    intro x hx
    cases hc : p c with
    | true =>
      rw [List.dropWhile_cons_of_pos hc] at hx
      exact ih x hx
    | false =>
      rw [List.dropWhile_cons_of_neg (by simp [hc])] at hx
      injection hx with hx
      rw [← hx]
      exact hc

/-- The last character of `rstrip s` is never Python whitespace. -/
theorem rstrip_last (s : List Char) :
    ∀ x, (rstrip s).getLast? = some x → isPyWS x = false := by
  intro x hx
  rw [rstrip, List.getLast?_reverse] at hx
  exact dropWhile_head_not isPyWS _ x hx

/-- A space or tab is Python whitespace. -/
theorem hws_implies_pyws {x : Char} (h : isHWS x = true) : isPyWS x = true := by
  have h' : x = ' ' ∨ x = '\t' := by simpa [isHWS] using h
  rcases h' with h' | h' <;> subst h' <;> decide

/-- Claim C8: the normalization performed on the captured standard output
yields text with no line ending in a space or tab, ending in exactly one
trailing blank line (the text ends with two newlines and never with
three). -/
theorem claim_C8 (stdout : List Char) :
    lineEndHWSFree (normalize_stdout stdout) = true
    ∧ ['\n', '\n'] <:+ normalize_stdout stdout
    ∧ ¬ ['\n', '\n', '\n'] <:+ normalize_stdout stdout := by
  have hsplit : normalize_stdout stdout
      = stripTrailingHWS (rstrip stdout) ++ ['\n', '\n'] := by
    rw [normalize_stdout]
    exact strip_append_nn (rstrip stdout)
  refine ⟨?_, ?_, ?_⟩
  · rw [normalize_stdout]
    exact strip_clean _
  · rw [hsplit]
    exact List.suffix_append _ _
  · rw [hsplit]
    intro hsuf
    obtain ⟨v, hv⟩ := hsuf
    have hveq : (v ++ ['\n']) ++ ['\n', '\n']
        = stripTrailingHWS (rstrip stdout) ++ ['\n', '\n'] := by
      rw [List.append_assoc]
      exact hv
    have huv : stripTrailingHWS (rstrip stdout) = v ++ ['\n'] :=
      (List.append_cancel_right hveq).symm
    have hlast : (stripTrailingHWS (rstrip stdout)).getLast? = some '\n' := by
      rw [huv]
      exact List.getLast?_concat v
    have hlaststrip : (stripTrailingHWS (rstrip stdout)).getLast?
        = (rstrip stdout).getLast? := by
      apply strip_getLast
      intro x hx
      cases hhx : isHWS x with
      | false => rfl
      | true =>
        have h1 := rstrip_last stdout x hx
        rw [hws_implies_pyws hhx] at h1
        exact absurd h1 (by decide)
    rw [hlaststrip] at hlast
    have h2 := rstrip_last stdout '\n' hlast
    rw [show isPyWS '\n' = true from by decide] at h2
    exact absurd h2 (by decide)

/-- Claim C9, counterexample: `subprocess.run` is called without
`check=True`, so a completed run with the non-success exit status 1 is not
treated as a failure — the captured output is processed and the
documentation file is written. -/
theorem claim_C9_counterexample :
    (1 : Int) ≠ 0
    ∧ isWrote (main_run (RunOutcome.completed 1 "oops".toList)
        ".. BEGIN HELP TEXT\n.. END HELP TEXT".toList) = true := by
  decide

/-- Claim C9 (amended): when the external command cannot be executed the
raised exception aborts the run before any file write; but a non-success
exit status of a completed command is never inspected: the behaviour of
the run is the same whatever the exit status, so no failure is reported
and the splice is still attempted. -/
theorem claim_C9_amended :
    (∀ data, main_run RunOutcome.raised data = MainResult.exception)
    ∧ ∀ rc rc' stdout data,
        main_run (RunOutcome.completed rc stdout) data
          = main_run (RunOutcome.completed rc' stdout) data :=
  ⟨fun _ => rfl, fun _ _ _ _ => rfl⟩
